import Mathlib

/-!
# jobber_md.js: first-page URL heuristic and link highlighter

A shallow embedding of `src/js/jobber_md.js`.

* JavaScript strings are modelled as `List Char`.  `window.location.href` is a
  well-formed string and every character the script searches for is ASCII, so
  searching and splicing over Unicode scalar values agrees with the same
  operations over UTF-16 code units.
* An element is modelled by the three inline style properties the script
  assigns and the three `dataset` entries it writes.  Style properties are
  plain string slots: reading a property gives back the string last assigned.
* `null` is `none`; a function that mutates its argument is modelled by the
  function giving the state of the argument after the call.
-/

namespace JobberMd

/-! ## Strings -/

/-- The selector for job links, `jobLinkSelector` (line 5). -/
def jobLinkSelector : String := "a.mui-8ugpds"

/-- The selector for pagination links, `paginationSelector` (line 8). -/
def paginationSelector : String := "a[href*=\"page-\"]"

/-- `String.prototype.includes`: does `pat` occur in `s` as a contiguous
block (case-sensitive)?  A left-to-right scan. -/
def includes : List Char → List Char → Bool
  | [], pat => pat.isPrefixOf []
  | ch :: s, pat => pat.isPrefixOf (ch :: s) || includes s pat

/-- `String.prototype.replace` with a string pattern and a replacement that
has no `$`: the first occurrence of `pat` is replaced by `repl`; a string
without an occurrence is returned as it is. -/
def replaceFirst : List Char → List Char → List Char → List Char
  | [], pat, repl => if pat.isPrefixOf [] then repl else []
  | ch :: s, pat, repl =>
    if pat.isPrefixOf (ch :: s) then repl ++ (ch :: s).drop pat.length
    else ch :: replaceFirst s pat repl

/-! ## The regular expression `/page\-\d+/i` -/

/-- The atoms of the regular expression: a literal character (compared up to
case, because of the `i` flag) or `\d`. -/
inductive Atom where
  | lit (c : Char)
  | digit
deriving DecidableEq, Repr

/-- The canonical form used by a case-insensitive match without the `u` flag:
the upper-case form.  ECMAScript never canonicalises a non-ASCII character to
an ASCII one, and the pattern has ASCII characters only, so the ASCII
upper-casing decides every comparison against a pattern character the way
the full table does. -/
def canonicalize (ch : Char) : Char := ch.toUpper

/-- Does one atom accept one character?  `\d` is `[0-9]`. -/
def atomMatches : Atom → Char → Bool
  | Atom.lit p, ch => canonicalize ch == canonicalize p
  | Atom.digit, ch => ch.isDigit

/-- Match a sequence of atoms at the start of `s`; the result is the rest of
`s` behind the match. -/
def matchAtoms : List Atom → List Char → Option (List Char)
  | [], s => some s
  | _ :: _, [] => none
  | a :: as, ch :: s => if atomMatches a ch then matchAtoms as s else none

/-- The fixed part of `/page\-\d+/i`: `page-` and the first digit. -/
def pageAtoms : List Atom :=
  [Atom.lit 'p', Atom.lit 'a', Atom.lit 'g', Atom.lit 'e', Atom.lit '-', Atom.digit]

/-- Match `/page\-\d+/i` at the start of `s`: the fixed part, then as many
further digits as there are (`+` is greedy and nothing follows it, so there is
no backtracking).  The result is the rest of `s` behind the match. -/
def matchHere (s : List Char) : Option (List Char) :=
  (matchAtoms pageAtoms s).map (List.dropWhile Char.isDigit)

/-- The call `currentUrl.replace(regexPattern, 'page-1')` (line 21): the
regular expression has no `g` flag, so the leftmost match is replaced and the
rest is copied; without a match the string is returned as it is. -/
def regexReplace : List Char → List Char
  | [] => []
  | ch :: s =>
    match matchHere (ch :: s) with
    | some rest => "page-1".toList ++ rest
    | none => ch :: regexReplace s

/-- The hardcoded template of line 26. -/
def fallbackUrl : List Char := "https://jobber.md/jobs/page-1/".toList

/-- The placeholder of line 28, two opening braces, `page`, two closing
braces. -/
def pagePlaceholder : List Char := "\x7b\x7bpage\x7d\x7d".toList

/-- The value of `firstPageUrl` after lines 16 to 29, as a function of
`window.location.href`. -/
def firstPageUrl (currentUrl : List Char) : List Char :=
  if includes currentUrl "page-".toList then
    regexReplace currentUrl
  else
    replaceFirst fallbackUrl pagePlaceholder "1".toList

/-! ## Elements -/

/-- The inline style properties the script touches. -/
structure Style where
  outline : String
  outlineOffset : String
  backgroundColor : String
deriving DecidableEq, Repr

/-- The `dataset` entries the script touches; `none` is an absent entry. -/
structure Dataset where
  originalOutline : Option String
  originalOutlineOffset : Option String
  originalBg : Option String
deriving DecidableEq, Repr

/-- The state of an element. -/
structure Element where
  style : Style
  dataset : Dataset
deriving DecidableEq, Repr

/-- JavaScript truthiness of a string: every string but the empty one. -/
def truthy (s : String) : Bool := s != ""

/-- JavaScript truthiness of a `dataset` entry: `undefined` is falsy. -/
def truthyEntry : Option String → Bool
  | some s => truthy s
  | none => false

/-- The expression `entry || ''`. -/
def orEmpty : Option String → String
  | some s => if truthy s then s else ""
  | none => ""

/-- The function `highlightElement` (lines 34 to 44). -/
def highlightElement : Option Element → Option Element
  | none => none
  | some element =>
    if !truthy element.style.outline then
      let s1 : Style := { element.style with outline := "3px solid red" }
      let s2 : Style := { s1 with outlineOffset := "2px" }
      let s3 : Style := { s2 with backgroundColor := "rgba(255, 0, 0, 0.2)" }
      let d1 : Dataset := { element.dataset with originalOutline := some s3.outline }
      let d2 : Dataset := { d1 with originalOutlineOffset := some s3.outlineOffset }
      let d3 : Dataset := { d2 with originalBg := some s3.backgroundColor }
      some { style := s3, dataset := d3 }
    else
      some element

/-- The function `removeHighlight` (lines 47 to 56). -/
def removeHighlight : Option Element → Option Element
  | none => none
  | some element =>
    if truthyEntry element.dataset.originalOutline then
      let s1 : Style := { element.style with outline := orEmpty element.dataset.originalOutline }
      let s2 : Style := { s1 with outlineOffset := orEmpty element.dataset.originalOutlineOffset }
      let s3 : Style := { s2 with backgroundColor := orEmpty element.dataset.originalBg }
      let d1 : Dataset := { element.dataset with originalOutline := none }
      let d2 : Dataset := { d1 with originalOutlineOffset := none }
      let d3 : Dataset := { d2 with originalBg := none }
      some { style := s3, dataset := d3 }
    else
      some element

/-! ## The document and the script -/

/-- A node of the page: what the browser answers when the node is tested
against a selector, and the state of the element. -/
structure Node where
  selectorMatches : String → Bool
  element : Element

/-- The page: its nodes in document order.  A position in the list is a
reference to a node. -/
abbrev Document := List Node

/-- The call `document.querySelectorAll(selector)`: the references to the
matching nodes, in document order, each once. -/
def querySelectorAll (doc : Document) (selector : String) : List Nat :=
  (List.range doc.length).filter fun i =>
    match doc[i]? with
    | some n => n.selectorMatches selector
    | none => false

/-- The node after a function of an element has been called on it. -/
def onNode (f : Option Element → Option Element) (n : Node) : Node :=
  match f (some n.element) with
  | some e => { n with element := e }
  | none => n

/-- Call a function of an element on the node behind a reference. -/
def callOn (f : Option Element → Option Element) (doc : Document) (i : Nat) : Document :=
  match doc[i]? with
  | some n => doc.set i (onNode f n)
  | none => doc

/-- The call `links.forEach(f)`. -/
def forEach (links : List Nat) (f : Option Element → Option Element) (doc : Document) : Document :=
  links.foldl (callOn f) doc

/-- What is left when the script has run: the page, and the constants the
installed function closes over. -/
structure ScriptState where
  document : Document
  firstPageUrl : List Char
  jobLinks : List Nat
  paginationLinks : List Nat

/-- The script, top to bottom (console output left out). -/
def runScript (href : List Char) (doc : Document) : ScriptState :=
  let url := firstPageUrl href
  let jobLinks := querySelectorAll doc jobLinkSelector
  let doc1 := forEach jobLinks highlightElement doc
  let paginationLinks := querySelectorAll doc1 paginationSelector
  let doc2 := forEach paginationLinks highlightElement doc1
  { document := doc2, firstPageUrl := url, jobLinks := jobLinks, paginationLinks := paginationLinks }

/-- The installed function `window.removeJOBBER_MDHighlights` (lines 69 to 73). -/
def removeJOBBER_MDHighlights (st : ScriptState) : ScriptState :=
  let doc1 := forEach st.jobLinks removeHighlight st.document
  let doc2 := forEach st.paginationLinks removeHighlight doc1
  { st with document := doc2 }

/-- One call of one of the two element functions. -/
inductive Call where
  | highlight
  | remove
deriving DecidableEq, Repr

/-- Perform one call. -/
def Call.run : Call → Option Element → Option Element
  | Call.highlight, e => highlightElement e
  | Call.remove, e => removeHighlight e

/-- Perform a sequence of calls, first to last, on one element. -/
def runCalls (calls : List Call) (e : Option Element) : Option Element :=
  calls.foldl (fun acc c => c.run acc) e

/-! ## The words of the specification -/

/-- An occurrence of `page-<digits>`, up to case: the first five characters
are `page-` in some mix of cases and what follows is a non-empty run of
digits. -/
def IsPageOccurrence (w : List Char) : Prop :=
  (w.take 5).map Char.toLower = "page-".toList ∧ w.drop 5 ≠ [] ∧ ∀ d ∈ w.drop 5, d.isDigit = true

/-- The string contains `page-` followed by one or more digits, matched up to
case. -/
def ContainsPageDigits (u : List Char) : Prop :=
  ∃ a w c, u = a ++ w ++ c ∧ IsPageOccurrence w

/-- The string `u` splits as `pre ++ w ++ post` where `w` is the first
occurrence of `page-<digits>`: it takes all the digits there are, and no
occurrence starts further left. -/
def IsFirstOccurrence (u pre w post : List Char) : Prop :=
  u = pre ++ w ++ post ∧ IsPageOccurrence w ∧
  (∀ d, post.head? = some d → d.isDigit = false) ∧
  ∀ a w2 c, u = a ++ w2 ++ c → IsPageOccurrence w2 → pre.length ≤ a.length

/-- No annotation entry is present. -/
def noAnnotations : Dataset :=
  { originalOutline := none, originalOutlineOffset := none, originalBg := none }

/-- The three annotation entries as `highlightElement` writes them. -/
def highlightAnnotations : Dataset :=
  { originalOutline := some "3px solid red", originalOutlineOffset := some "2px",
    originalBg := some "rgba(255, 0, 0, 0.2)" }

/-- The style the highlighter applies. -/
def highlightStyle : Style :=
  { outline := "3px solid red", outlineOffset := "2px", backgroundColor := "rgba(255, 0, 0, 0.2)" }

/-- The annotation state of the invariant: the three entries are all absent,
or all present, equal to the highlight values and to the current style. -/
def AnnotationsConsistent (e : Element) : Prop :=
  e.dataset = noAnnotations ∨ (e.dataset = highlightAnnotations ∧ e.style = highlightStyle)

/-- A job link that has no inline style. -/
def plainJobLink : Node :=
  { selectorMatches := fun sel => sel == jobLinkSelector,
    element := { style := { outline := "", outlineOffset := "", backgroundColor := "" },
                 dataset := noAnnotations } }

/-- A page with one job link that has no inline style. -/
def plainJobLinkPage : Document := [plainJobLink]

/-- A job link that has an outline of its own. -/
def outlinedJobLink : Node :=
  { selectorMatches := fun sel => sel == jobLinkSelector,
    element := { style := { outline := "1px solid blue", outlineOffset := "",
                            backgroundColor := "" },
                 dataset := noAnnotations } }

/-- A page with one job link that has an outline of its own. -/
def outlinedJobLinkPage : Document := [outlinedJobLink]

/-! ## Comparing strings atom by atom -/

/-- Two characters no atom of the pattern tells apart. -/
def SameClass (a b : Char) : Prop :=
  ∀ atom ∈ pageAtoms, atomMatches atom a = atomMatches atom b

/-- Two strings whose first `n` characters are pairwise in the same class
(and that end together, if they end within those `n`). -/
def Agree : Nat → List Char → List Char → Prop
  | 0, _, _ => True
  | _ + 1, [], [] => True
  | n + 1, a :: s, b :: t => SameClass a b ∧ Agree n s t
  | _ + 1, [], _ :: _ => False
  | _ + 1, _ :: _, [] => False

/-! ## Characters -/

theorem char_of_range (c : Char) (h1 : ¬ c.toNat < 45) (h2 : ¬ 122 < c.toNat) :
    ∃ n, n < 78 ∧ c = Char.ofNat (n + 45) := by
  refine ⟨c.toNat - 45, by omega, ?_⟩
  have h : c.toNat - 45 + 45 = c.toNat := by omega
  rw [h, Char.ofNat_toNat]

theorem toUpper_of_outside (c : Char) (h : c.toNat < 45 ∨ 122 < c.toNat) : c.toUpper = c := by
  unfold Char.toUpper
  simp only [ge_iff_le, ite_eq_right_iff, and_imp]
  intro h1 h2
  omega

theorem toLower_of_outside (c : Char) (h : c.toNat < 45 ∨ 122 < c.toNat) : c.toLower = c := by
  unfold Char.toLower
  simp only [ge_iff_le, ite_eq_right_iff, and_imp]
  intro h1 h2
  omega

/-- A property of characters that holds outside the range `-` to `z` and at
each character of that range holds everywhere. -/
theorem char_cases (P : Char → Prop)
    (hin : ∀ n, n < 78 → P (Char.ofNat (n + 45)))
    (hout : ∀ c : Char, c.toNat < 45 ∨ 122 < c.toNat → P c) : ∀ c, P c := by
  intro c
  by_cases h1 : c.toNat < 45
  · exact hout c (Or.inl h1)
  · by_cases h2 : 122 < c.toNat
    · exact hout c (Or.inr h2)
    · obtain ⟨n, hn, rfl⟩ := char_of_range c h1 h2
      exact hin n hn

/-- The characters a literal atom of the pattern accepts: the pattern
character and its upper-case form. -/
theorem canonicalize_eq_iff (p : Char) (hp : p ∈ ['p', 'a', 'g', 'e', '-']) (c : Char) :
    canonicalize c = canonicalize p ↔ (c = p ∨ c = p.toUpper) := by
  simp only [List.mem_cons, List.mem_singleton, List.not_mem_nil, or_false] at hp
  revert c
  apply char_cases
  · rcases hp with rfl | rfl | rfl | rfl | rfl <;> decide
  · intro c hc
    unfold canonicalize
    rw [toUpper_of_outside c hc]
    rcases hp with rfl | rfl | rfl | rfl | rfl <;>
      (constructor
       · intro h; right; exact h
       · rintro (h | h)
         · subst h; revert hc; decide
         · exact h)

/-- The characters that lower-case to a pattern character. -/
theorem toLower_eq_iff (p : Char) (hp : p ∈ ['p', 'a', 'g', 'e', '-']) (c : Char) :
    c.toLower = p ↔ (c = p ∨ c = p.toUpper) := by
  simp only [List.mem_cons, List.mem_singleton, List.not_mem_nil, or_false] at hp
  revert c
  apply char_cases
  · rcases hp with rfl | rfl | rfl | rfl | rfl <;> decide
  · intro c hc
    rw [toLower_of_outside c hc]
    rcases hp with rfl | rfl | rfl | rfl | rfl <;>
      (constructor
       · intro h; left; exact h
       · rintro (h | h)
         · exact h
         · subst h; revert hc; decide)

theorem lit_iff_toLower (p : Char) (hp : p ∈ ['p', 'a', 'g', 'e', '-']) (c : Char) :
    atomMatches (Atom.lit p) c = true ↔ c.toLower = p := by
  rw [toLower_eq_iff p hp, ← canonicalize_eq_iff p hp]
  simp [atomMatches]

/-! ## Searching and matching -/

/-- The scan `includes` finds exactly the contiguous sublists. -/
theorem includes_iff (s pat : List Char) : includes s pat = true ↔ pat <:+: s := by
  induction s with
  | nil => cases pat <;> simp [includes]
  | cons ch s ih =>
    simp only [includes, Bool.or_eq_true, ih, List.infix_cons_iff, List.isPrefixOf_iff_prefix]

/-- The fixed part of the pattern accepts six characters: `page-` up to case
and a digit. -/
theorem matchAtoms_page_iff (s t : List Char) :
    matchAtoms pageAtoms s = some t ↔
      ∃ c1 c2 c3 c4 c5 d, s = c1 :: c2 :: c3 :: c4 :: c5 :: d :: t ∧
        c1.toLower = 'p' ∧ c2.toLower = 'a' ∧ c3.toLower = 'g' ∧ c4.toLower = 'e' ∧
        c5.toLower = '-' ∧ d.isDigit = true := by
  have hp := lit_iff_toLower 'p' (by decide)
  have ha := lit_iff_toLower 'a' (by decide)
  have hg := lit_iff_toLower 'g' (by decide)
  have he := lit_iff_toLower 'e' (by decide)
  have hd := lit_iff_toLower '-' (by decide)
  constructor
  · intro h
    rcases s with _ | ⟨c1, _ | ⟨c2, _ | ⟨c3, _ | ⟨c4, _ | ⟨c5, _ | ⟨d, r⟩⟩⟩⟩⟩⟩ <;>
      simp only [pageAtoms, matchAtoms, ite_eq_left_iff, reduceCtorEq, imp_false,
        Bool.not_eq_true, Bool.not_eq_false, ite_self] at h
    by_cases h1 : atomMatches (Atom.lit 'p') c1 = true <;> simp only [h1, if_true, if_false, reduceCtorEq, Bool.false_eq_true] at h
    by_cases h2 : atomMatches (Atom.lit 'a') c2 = true <;> simp only [h2, if_true, if_false, reduceCtorEq, Bool.false_eq_true] at h
    by_cases h3 : atomMatches (Atom.lit 'g') c3 = true <;> simp only [h3, if_true, if_false, reduceCtorEq, Bool.false_eq_true] at h
    by_cases h4 : atomMatches (Atom.lit 'e') c4 = true <;> simp only [h4, if_true, if_false, reduceCtorEq, Bool.false_eq_true] at h
    by_cases h5 : atomMatches (Atom.lit '-') c5 = true <;> simp only [h5, if_true, if_false, reduceCtorEq, Bool.false_eq_true] at h
    by_cases h6 : atomMatches Atom.digit d = true <;> simp only [h6, if_true, if_false, reduceCtorEq, Bool.false_eq_true] at h
    simp only [Option.some.injEq] at h
    subst h
    exact ⟨c1, c2, c3, c4, c5, d, rfl, (hp c1).1 h1, (ha c2).1 h2, (hg c3).1 h3, (he c4).1 h4,
      (hd c5).1 h5, h6⟩
  · rintro ⟨c1, c2, c3, c4, c5, d, rfl, h1, h2, h3, h4, h5, h6⟩
    have k6 : atomMatches Atom.digit d = true := h6
    simp only [pageAtoms, matchAtoms, (hp c1).2 h1, (ha c2).2 h2, (hg c3).2 h3, (he c4).2 h4,
      (hd c5).2 h5, k6, if_true]

/-- An occurrence, spelled out character by character. -/
theorem isPageOccurrence_iff (w : List Char) :
    IsPageOccurrence w ↔
      ∃ c1 c2 c3 c4 c5 d ds, w = c1 :: c2 :: c3 :: c4 :: c5 :: d :: ds ∧
        c1.toLower = 'p' ∧ c2.toLower = 'a' ∧ c3.toLower = 'g' ∧ c4.toLower = 'e' ∧
        c5.toLower = '-' ∧ d.isDigit = true ∧ ∀ x ∈ ds, x.isDigit = true := by
  constructor
  · rintro ⟨h1, h2, h3⟩
    rcases w with _ | ⟨c1, _ | ⟨c2, _ | ⟨c3, _ | ⟨c4, _ | ⟨c5, _ | ⟨d, ds⟩⟩⟩⟩⟩⟩ <;>
      simp at h1 h2
    simp only [List.drop_succ_cons, List.drop_zero, List.mem_cons, forall_eq_or_imp] at h3
    exact ⟨c1, c2, c3, c4, c5, d, ds, rfl, h1.1, h1.2.1, h1.2.2.1, h1.2.2.2.1, h1.2.2.2.2,
      h3.1, h3.2⟩
  · rintro ⟨c1, c2, c3, c4, c5, d, ds, rfl, h1, h2, h3, h4, h5, h6, h7⟩
    refine ⟨?_, ?_, ?_⟩
    · simp [h1, h2, h3, h4, h5]
    · simp
    · simp only [List.drop_succ_cons, List.drop_zero, List.mem_cons, forall_eq_or_imp]
      exact ⟨h6, h7⟩

theorem dropWhile_append_of_all (p : Char → Bool) (ds c : List Char)
    (h : ∀ x ∈ ds, p x = true) : (ds ++ c).dropWhile p = c.dropWhile p := by
  induction ds with
  | nil => rfl
  | cons x ds ih =>
    have hx : p x = true := h x (List.mem_cons_self _ _)
    simp only [List.cons_append, List.dropWhile_cons, hx, if_true]
    exact ih (fun y hy => h y (List.mem_cons_of_mem _ hy))

theorem head_dropWhile_isDigit (t : List Char) :
    ∀ d, (t.dropWhile Char.isDigit).head? = some d → d.isDigit = false := by
  intro d hd
  have h := List.head?_dropWhile_not Char.isDigit t
  rw [hd] at h
  exact h

theorem dropWhile_of_head (t : List Char) (h : ∀ d, t.head? = some d → d.isDigit = false) :
    t.dropWhile Char.isDigit = t := by
  cases t with
  | nil => rfl
  | cons x t =>
    have hx : x.isDigit = false := h x rfl
    simp [List.dropWhile_cons, hx]

/-- A match of the regular expression at the start of `s` is an occurrence that
takes all the digits there are. -/
theorem matchHere_sound (s r : List Char) (h : matchHere s = some r) :
    ∃ w, IsPageOccurrence w ∧ s = w ++ r ∧ ∀ d, r.head? = some d → d.isDigit = false := by
  unfold matchHere at h
  rw [Option.map_eq_some'] at h
  obtain ⟨t, ht, rfl⟩ := h
  obtain ⟨c1, c2, c3, c4, c5, d, rfl, h1, h2, h3, h4, h5, h6⟩ := (matchAtoms_page_iff s t).1 ht
  refine ⟨c1 :: c2 :: c3 :: c4 :: c5 :: d :: t.takeWhile Char.isDigit, ?_, ?_, ?_⟩
  · rw [isPageOccurrence_iff]
    exact ⟨c1, c2, c3, c4, c5, d, _, rfl, h1, h2, h3, h4, h5, h6,
      fun x hx => List.mem_takeWhile_imp hx⟩
  · simp only [List.cons_append, List.takeWhile_append_dropWhile]
  · exact head_dropWhile_isDigit t

/-- Where an occurrence starts, the regular expression matches. -/
theorem matchHere_complete (w c : List Char) (h : IsPageOccurrence w) :
    matchHere (w ++ c) = some (c.dropWhile Char.isDigit) := by
  rw [isPageOccurrence_iff] at h
  obtain ⟨c1, c2, c3, c4, c5, d, ds, rfl, h1, h2, h3, h4, h5, h6, h7⟩ := h
  have hm : matchAtoms pageAtoms (c1 :: c2 :: c3 :: c4 :: c5 :: d :: (ds ++ c)) = some (ds ++ c) :=
    (matchAtoms_page_iff _ _).2 ⟨c1, c2, c3, c4, c5, d, rfl, h1, h2, h3, h4, h5, h6⟩
  unfold matchHere
  simp only [List.cons_append, hm, Option.map_some']
  rw [dropWhile_append_of_all _ _ _ h7]

/-! ## The replacement -/

theorem regexReplace_cons_some (ch : Char) (s r : List Char) (h : matchHere (ch :: s) = some r) :
    regexReplace (ch :: s) = "page-1".toList ++ r := by
  simp only [regexReplace, h]

theorem regexReplace_cons_none (ch : Char) (s : List Char) (h : matchHere (ch :: s) = none) :
    regexReplace (ch :: s) = ch :: regexReplace s := by
  simp only [regexReplace, h]

theorem not_isPageOccurrence_nil : ¬ IsPageOccurrence [] := by
  rintro ⟨_, h, _⟩
  exact h rfl

theorem containsPageDigits_of_matchHere (s r : List Char) (h : matchHere s = some r) :
    ContainsPageDigits s := by
  obtain ⟨w, hw, hs, _⟩ := matchHere_sound s r h
  exact ⟨[], w, r, by simpa using hs, hw⟩

/-- With an occurrence somewhere in the string, the replacement splices
`page-1` in place of the first occurrence. -/
theorem regexReplace_first (u : List Char) (h : ContainsPageDigits u) :
    ∃ pre w post, IsFirstOccurrence u pre w post ∧
      regexReplace u = pre ++ "page-1".toList ++ post := by
  induction u with
  | nil =>
    obtain ⟨a, w, c, hu, hw⟩ := h
    have hw0 : w = [] := by
      have h1 := congrArg List.length hu
      simp only [List.length_nil, List.length_append] at h1
      exact List.eq_nil_of_length_eq_zero (by omega)
    subst hw0
    exact absurd hw not_isPageOccurrence_nil
  | cons x xs ih =>
    cases hm : matchHere (x :: xs) with
    | some r =>
      obtain ⟨w, hw, hs, hr⟩ := matchHere_sound _ r hm
      refine ⟨[], w, r, ⟨by simpa using hs, hw, hr, ?_⟩, ?_⟩
      · intro a w2 c _ _
        exact Nat.zero_le _
      · rw [regexReplace_cons_some x xs r hm]
        rfl
    | none =>
      have hnot : ∀ a w2 c, x :: xs = a ++ w2 ++ c → IsPageOccurrence w2 → a ≠ [] := by
        intro a w2 c hu hw2 ha
        subst ha
        rw [List.nil_append] at hu
        rw [hu, matchHere_complete w2 c hw2] at hm
        exact Option.noConfusion hm
      have htail : ∀ a w2 c, x :: xs = a ++ w2 ++ c → IsPageOccurrence w2 →
          ∃ a2, a = x :: a2 ∧ xs = a2 ++ w2 ++ c := by
        intro a w2 c hu hw2
        cases a with
        | nil => exact absurd rfl (hnot [] w2 c hu hw2)
        | cons y a2 =>
          simp only [List.cons_append, List.cons.injEq] at hu
          exact ⟨a2, by rw [hu.1], hu.2⟩
      obtain ⟨a, w, c, hu, hw⟩ := h
      obtain ⟨a2, _, hxs⟩ := htail a w c hu hw
      obtain ⟨pre, w1, post, ⟨h1, h2, h3, h4⟩, h5⟩ := ih ⟨a2, w, c, hxs, hw⟩
      refine ⟨x :: pre, w1, post, ⟨by rw [h1]; rfl, h2, h3, ?_⟩, ?_⟩
      · intro b w2 d hb hw2
        obtain ⟨b2, rfl, hb2⟩ := htail b w2 d hb hw2
        have := h4 b2 w2 d hb2 hw2
        simp only [List.length_cons]
        omega
      · rw [regexReplace_cons_none x xs hm, h5]
        rfl

/-- Without an occurrence the replacement changes nothing. -/
theorem regexReplace_of_not_contains (u : List Char) (h : ¬ ContainsPageDigits u) :
    regexReplace u = u := by
  induction u with
  | nil => rfl
  | cons x xs ih =>
    cases hm : matchHere (x :: xs) with
    | some r => exact absurd (containsPageDigits_of_matchHere _ r hm) h
    | none =>
      rw [regexReplace_cons_none x xs hm, ih]
      rintro ⟨a, w, c, hu, hw⟩
      exact h ⟨x :: a, w, c, by rw [hu]; rfl, hw⟩

/-- The first occurrence is unique: the three parts are determined by the
string. -/
theorem isFirstOccurrence_unique (u pre w post pre2 w2 post2 : List Char)
    (h : IsFirstOccurrence u pre w post) (h2 : IsFirstOccurrence u pre2 w2 post2) :
    pre = pre2 ∧ w = w2 ∧ post = post2 := by
  obtain ⟨hu, hw, hp, hl⟩ := h
  obtain ⟨hu2, hw2, hp2, hl2⟩ := h2
  have hlen : pre.length = pre2.length :=
    Nat.le_antisymm (hl pre2 w2 post2 hu2 hw2) (hl2 pre w post hu hw)
  have happ : pre ++ (w ++ post) = pre2 ++ (w2 ++ post2) := by
    rw [← List.append_assoc, ← List.append_assoc, ← hu, ← hu2]
  obtain ⟨hpre, hrest⟩ := List.append_inj happ hlen
  have e1 := matchHere_complete w post hw
  have e2 := matchHere_complete w2 post2 hw2
  rw [hrest, e2, dropWhile_of_head post hp, dropWhile_of_head post2 hp2] at e1
  have hpost : post = post2 := (Option.some.inj e1).symm
  subst hpost
  exact ⟨hpre, List.append_cancel_right hrest, rfl⟩

/-! ## Replacing twice -/

theorem sameClass_refl (a : Char) : SameClass a a := fun _ _ => rfl

theorem agree_refl (n : Nat) (s : List Char) : Agree n s s := by
  induction n generalizing s with
  | zero => exact trivial
  | succ n ih =>
    cases s with
    | nil => exact trivial
    | cons a s => exact ⟨sameClass_refl a, ih s⟩

theorem agree_pred (n : Nat) (s t : List Char) (h : Agree (n + 1) s t) : Agree n s t := by
  induction n generalizing s t with
  | zero => exact trivial
  | succ n ih =>
    cases s with
    | nil =>
      cases t with
      | nil => exact trivial
      | cons b t => exact absurd h (by simp [Agree])
    | cons a s =>
      cases t with
      | nil => exact absurd h (by simp [Agree])
      | cons b t => exact ⟨h.1, ih s t h.2⟩

/-- Whether a sequence of pattern atoms matches depends on the classes of the
characters it reads only. -/
theorem matchAtoms_agree (atoms : List Atom) (hat : ∀ a ∈ atoms, a ∈ pageAtoms)
    (s t : List Char) (h : Agree atoms.length s t) :
    (matchAtoms atoms s).isSome = (matchAtoms atoms t).isSome := by
  induction atoms generalizing s t with
  | nil => rfl
  | cons a atoms ih =>
    cases s with
    | nil =>
      cases t with
      | nil => rfl
      | cons b t => exact absurd h (by simp [Agree])
    | cons x s =>
      cases t with
      | nil => exact absurd h (by simp [Agree])
      | cons y t =>
        have hxy : atomMatches a x = atomMatches a y := h.1 a (hat a (List.mem_cons_self _ _))
        have hrec := ih (fun b hb => hat b (List.mem_cons_of_mem _ hb)) s t h.2
        simp only [matchAtoms, hxy]
        cases atomMatches a y
        · rfl
        · simpa using hrec

theorem matchHere_isSome (s : List Char) :
    (matchHere s).isSome = (matchAtoms pageAtoms s).isSome := by
  unfold matchHere
  cases matchAtoms pageAtoms s <;> rfl

theorem matchHere_agree (s t : List Char) (h : Agree 6 s t) :
    (matchHere s).isSome = (matchHere t).isSome := by
  rw [matchHere_isSome, matchHere_isSome]
  exact matchAtoms_agree pageAtoms (fun _ ha => ha) s t h

/-- A character that lower-cases to a pattern character is in its class. -/
theorem sameClass_of_toLower (p : Char) (hp : p ∈ ['p', 'a', 'g', 'e', '-']) (c : Char)
    (h : c.toLower = p) : SameClass p c := by
  rcases (toLower_eq_iff p hp c).1 h with rfl | rfl
  · exact sameClass_refl _
  · simp only [List.mem_cons, List.mem_singleton, List.not_mem_nil, or_false] at hp
    unfold SameClass
    rcases hp with rfl | rfl | rfl | rfl | rfl <;> decide

/-- A digit is accepted by no literal atom of the pattern. -/
theorem lit_of_isDigit (p : Char) (hp : p ∈ ['p', 'a', 'g', 'e', '-']) (d : Char)
    (h : d.isDigit = true) : atomMatches (Atom.lit p) d = false := by
  cases hm : atomMatches (Atom.lit p) d with
  | false => rfl
  | true =>
    have hl := (lit_iff_toLower p hp d).1 hm
    simp only [List.mem_cons, List.mem_singleton, List.not_mem_nil, or_false] at hp
    rcases (toLower_eq_iff p (by simpa using hp) d).1 hl with rfl | rfl
    · rcases hp with rfl | rfl | rfl | rfl | rfl <;> exact absurd h (by decide)
    · rcases hp with rfl | rfl | rfl | rfl | rfl <;> exact absurd h (by decide)

/-- Every digit is in the class of `1`. -/
theorem sameClass_of_isDigit (d : Char) (h : d.isDigit = true) : SameClass '1' d := by
  intro atom hatom
  simp only [pageAtoms, List.mem_cons, List.mem_singleton, List.not_mem_nil, or_false] at hatom
  rcases hatom with rfl | rfl | rfl | rfl | rfl | rfl
  · rw [lit_of_isDigit 'p' (by decide) d h]; decide
  · rw [lit_of_isDigit 'a' (by decide) d h]; decide
  · rw [lit_of_isDigit 'g' (by decide) d h]; decide
  · rw [lit_of_isDigit 'e' (by decide) d h]; decide
  · rw [lit_of_isDigit '-' (by decide) d h]; decide
  · simp only [atomMatches, h]; decide

/-- The replacement keeps the classes of the first six characters. -/
theorem agree_regexReplace (s : List Char) : Agree 6 (regexReplace s) s := by
  induction s with
  | nil => exact trivial
  | cons x xs ih =>
    cases hm : matchHere (x :: xs) with
    | some r =>
      rw [regexReplace_cons_some x xs r hm]
      unfold matchHere at hm
      rw [Option.map_eq_some'] at hm
      obtain ⟨t, ht, _⟩ := hm
      obtain ⟨c1, c2, c3, c4, c5, d, hs, h1, h2, h3, h4, h5, h6⟩ :=
        (matchAtoms_page_iff _ t).1 ht
      rw [hs]
      exact ⟨sameClass_of_toLower 'p' (by decide) c1 h1,
        sameClass_of_toLower 'a' (by decide) c2 h2,
        sameClass_of_toLower 'g' (by decide) c3 h3,
        sameClass_of_toLower 'e' (by decide) c4 h4,
        sameClass_of_toLower '-' (by decide) c5 h5,
        sameClass_of_isDigit d h6, trivial⟩
    | none =>
      rw [regexReplace_cons_none x xs hm]
      exact ⟨sameClass_refl x, agree_pred 5 _ _ ih⟩

/-- Replacing further right creates no match further left. -/
theorem matchHere_cons_regexReplace (x : Char) (xs : List Char)
    (h : matchHere (x :: xs) = none) : matchHere (x :: regexReplace xs) = none := by
  have hag : Agree 6 (x :: regexReplace xs) (x :: xs) :=
    ⟨sameClass_refl x, agree_pred 5 _ _ (agree_regexReplace xs)⟩
  have hs := matchHere_agree _ _ hag
  rw [h] at hs
  cases hm : matchHere (x :: regexReplace xs) with
  | none => rfl
  | some r => rw [hm] at hs; exact absurd hs (by simp)

theorem isPageOccurrence_page1 : IsPageOccurrence "page-1".toList := by
  unfold IsPageOccurrence
  decide

/-- The regular-expression replacement is idempotent. -/
theorem regexReplace_idem (s : List Char) : regexReplace (regexReplace s) = regexReplace s := by
  induction s with
  | nil => rfl
  | cons x xs ih =>
    cases hm : matchHere (x :: xs) with
    | some r =>
      rw [regexReplace_cons_some x xs r hm]
      obtain ⟨_, _, _, hr⟩ := matchHere_sound _ r hm
      have h1 := matchHere_complete "page-1".toList r isPageOccurrence_page1
      rw [dropWhile_of_head r hr] at h1
      exact regexReplace_cons_some 'p' _ r h1
    | none =>
      rw [regexReplace_cons_none x xs hm,
        regexReplace_cons_none x _ (matchHere_cons_regexReplace x xs hm), ih]

theorem matchHere_of_not_p (c : Char) (s : List Char)
    (h : atomMatches (Atom.lit 'p') c = false) : matchHere (c :: s) = none := by
  simp [matchHere, pageAtoms, matchAtoms, h]

/-- The replacement keeps an occurrence of the lower-case `page-`. -/
theorem regexReplace_keeps_page (s : List Char) (h : "page-".toList <:+: s) :
    "page-".toList <:+: regexReplace s := by
  induction s with
  | nil => exact absurd h (by simp)
  | cons x xs ih =>
    cases hm : matchHere (x :: xs) with
    | some r =>
      rw [regexReplace_cons_some x xs r hm]
      exact ⟨[], '1' :: r, rfl⟩
    | none =>
      rw [regexReplace_cons_none x xs hm]
      rcases List.infix_cons_iff.1 h with hp | hi
      · obtain ⟨t, ht⟩ := hp
        simp only [String.toList, List.cons_append, List.nil_append, List.cons.injEq] at ht
        obtain ⟨rfl, rfl⟩ := ht
        rw [regexReplace_cons_none 'a' _ (matchHere_of_not_p _ _ (by decide)),
          regexReplace_cons_none 'g' _ (matchHere_of_not_p _ _ (by decide)),
          regexReplace_cons_none 'e' _ (matchHere_of_not_p _ _ (by decide)),
          regexReplace_cons_none '-' _ (matchHere_of_not_p _ _ (by decide))]
        exact ⟨[], regexReplace t, rfl⟩
      · exact List.infix_cons (ih hi)

/-! ## The first-page URL -/

theorem firstPageUrl_of_sub (u : List Char) (h : "page-".toList <:+: u) :
    firstPageUrl u = regexReplace u := by
  unfold firstPageUrl
  rw [if_pos ((includes_iff u _).2 h)]

theorem replaceFirst_fallback :
    replaceFirst fallbackUrl pagePlaceholder "1".toList = "https://jobber.md/jobs/page-1/".toList := by
  decide

theorem firstPageUrl_of_not_sub (u : List Char) (h : ¬ "page-".toList <:+: u) :
    firstPageUrl u = "https://jobber.md/jobs/page-1/".toList := by
  unfold firstPageUrl
  rw [if_neg (fun hi => h ((includes_iff u _).1 hi))]
  exact replaceFirst_fallback

/-- Where an occurrence starts, the regular expression matches the rest of the
string. -/
theorem matchHere_drop_of_occurrence (u a w c : List Char) (hu : u = a ++ w ++ c)
    (hw : IsPageOccurrence w) : (matchHere (u.drop a.length)).isSome = true := by
  have hd : u.drop a.length = w ++ c := by
    rw [hu, List.append_assoc, List.drop_left]
  rw [hd, matchHere_complete w c hw]
  rfl

/-- A string with an occurrence has a position where the regular expression
matches. -/
theorem exists_drop_of_contains (u : List Char) (h : ContainsPageDigits u) :
    ∃ k, k < u.length ∧ (matchHere (u.drop k)).isSome = true := by
  obtain ⟨a, w, c, hu, hw⟩ := h
  refine ⟨a.length, ?_, matchHere_drop_of_occurrence u a w c hu hw⟩
  have hl := congrArg List.length hu
  simp only [List.length_append] at hl
  have hw5 : w.drop 5 ≠ [] := hw.2.1
  have hwl : 0 < w.length := by
    cases w with
    | nil => exact absurd rfl hw5
    | cons x w => simp
  omega

/-- Claim C1, the general statement refuted: `https://x.md/PAGE-7/` contains
`PAGE-7`, an occurrence of `page-<digits>` up to case, and that is its first
occurrence, yet the computed URL is the fallback and not
`https://x.md/page-1/`: the test `includes('page-')` of line 16 is
case-sensitive. -/
theorem firstPageUrl_upper_case_counterexample :
    ContainsPageDigits "https://x.md/PAGE-7/".toList ∧
    IsFirstOccurrence "https://x.md/PAGE-7/".toList
      "https://x.md/".toList "PAGE-7".toList "/".toList ∧
    firstPageUrl "https://x.md/PAGE-7/".toList = "https://jobber.md/jobs/page-1/".toList ∧
    firstPageUrl "https://x.md/PAGE-7/".toList ≠
      "https://x.md/".toList ++ "page-1".toList ++ "/".toList := by
  have hocc : IsPageOccurrence "PAGE-7".toList := by
    unfold IsPageOccurrence
    decide
  refine ⟨⟨"https://x.md/".toList, "PAGE-7".toList, "/".toList, by decide, hocc⟩,
    ⟨by decide, hocc, by decide, ?_⟩, by decide, by decide⟩
  intro a w2 c hu hw
  have hm := matchHere_drop_of_occurrence _ a w2 c hu hw
  have hno : ∀ k, k < 13 →
      (matchHere ("https://x.md/PAGE-7/".toList.drop k)).isSome = false := by decide
  by_contra hlt
  have hlt2 : a.length < 13 := by
    have : "https://x.md/".toList.length = 13 := by decide
    omega
  rw [hno a.length hlt2] at hm
  exact Bool.noConfusion hm

/-- Claim C1, amended: for every URL that contains the lower-case substring
`page-` and contains `page-` followed by one or more digits up to case, the
computed first-page URL is the URL with the first such occurrence replaced by
`page-1` and everything before and behind it unchanged.  Both witnesses of the
claim evaluate as it says (the second one through the fallback branch). -/
theorem firstPageUrl_pattern_present (u : List Char) (hsub : "page-".toList <:+: u)
    (h : ContainsPageDigits u) :
    (∃ pre w post, IsFirstOccurrence u pre w post ∧
      firstPageUrl u = pre ++ "page-1".toList ++ post) ∧
    firstPageUrl "https://jobber.md/jobs/page-3/listing".toList =
      "https://jobber.md/jobs/page-1/listing".toList ∧
    firstPageUrl "https://jobber.md/jobs/PAGE-7/".toList =
      "https://jobber.md/jobs/page-1/".toList := by
  refine ⟨?_, by decide, by decide⟩
  rw [firstPageUrl_of_sub u hsub]
  exact regexReplace_first u h

/-- Witness of C1 as amended, at `https://jobber.md/jobs/page-3/listing`. -/
theorem firstPageUrl_pattern_present_witness :
    "page-".toList <:+: "https://jobber.md/jobs/page-3/listing".toList ∧
    ContainsPageDigits "https://jobber.md/jobs/page-3/listing".toList ∧
    ((∃ pre w post,
        IsFirstOccurrence "https://jobber.md/jobs/page-3/listing".toList pre w post ∧
        firstPageUrl "https://jobber.md/jobs/page-3/listing".toList =
          pre ++ "page-1".toList ++ post) ∧
      firstPageUrl "https://jobber.md/jobs/page-3/listing".toList =
        "https://jobber.md/jobs/page-1/listing".toList ∧
      firstPageUrl "https://jobber.md/jobs/PAGE-7/".toList =
        "https://jobber.md/jobs/page-1/".toList) :=
  have hsub : "page-".toList <:+: "https://jobber.md/jobs/page-3/listing".toList :=
    (includes_iff _ _).1 (by decide)
  have hc : ContainsPageDigits "https://jobber.md/jobs/page-3/listing".toList :=
    ⟨"https://jobber.md/jobs/".toList, "page-3".toList, "/listing".toList, by decide,
      by unfold IsPageOccurrence; decide⟩
  ⟨hsub, hc, firstPageUrl_pattern_present _ hsub hc⟩

/-- Claim C2, refuted: `https://x.md/page-abc/` contains no `page-` followed
by a digit, yet the computed URL is not the fallback: line 16 finds `page-`,
the regular expression of line 20 finds nothing to replace, and the URL comes
back as it is. -/
theorem firstPageUrl_no_digits_counterexample :
    ¬ ContainsPageDigits "https://x.md/page-abc/".toList ∧
    firstPageUrl "https://x.md/page-abc/".toList = "https://x.md/page-abc/".toList ∧
    firstPageUrl "https://x.md/page-abc/".toList ≠ "https://jobber.md/jobs/page-1/".toList := by
  refine ⟨?_, by decide, by decide⟩
  intro h
  obtain ⟨k, hk, hm⟩ := exists_drop_of_contains _ h
  have hno : ∀ k, k < "https://x.md/page-abc/".toList.length →
      (matchHere ("https://x.md/page-abc/".toList.drop k)).isSome = false := by decide
  rw [hno k hk] at hm
  exact Bool.noConfusion hm

/-- Claim C2, amended: for every URL that contains no `page-` followed by a
digit (up to case), the computed first-page URL is the hardcoded fallback
`https://jobber.md/jobs/page-1/` when the URL does not contain the lower-case
substring `page-`, and the URL itself, unchanged, when it does. -/
theorem firstPageUrl_pattern_absent (u : List Char) (h : ¬ ContainsPageDigits u) :
    (¬ "page-".toList <:+: u → firstPageUrl u = "https://jobber.md/jobs/page-1/".toList) ∧
    ("page-".toList <:+: u → firstPageUrl u = u) := by
  constructor
  · exact firstPageUrl_of_not_sub u
  · intro hsub
    rw [firstPageUrl_of_sub u hsub]
    exact regexReplace_of_not_contains u h

/-- Witness of C2 as amended, at `https://x.md/page-abc/`. -/
theorem firstPageUrl_pattern_absent_witness :
    ¬ ContainsPageDigits "https://x.md/page-abc/".toList ∧
    (¬ "page-".toList <:+: "https://x.md/page-abc/".toList →
      firstPageUrl "https://x.md/page-abc/".toList = "https://jobber.md/jobs/page-1/".toList) ∧
    ("page-".toList <:+: "https://x.md/page-abc/".toList →
      firstPageUrl "https://x.md/page-abc/".toList = "https://x.md/page-abc/".toList) :=
  have hno : ∀ k, k < "https://x.md/page-abc/".toList.length →
      (matchHere ("https://x.md/page-abc/".toList.drop k)).isSome = false := by decide
  have hn : ¬ ContainsPageDigits "https://x.md/page-abc/".toList := fun h =>
    match exists_drop_of_contains _ h with
    | ⟨k, hk, hm⟩ => Bool.noConfusion ((hno k hk).symm.trans hm)
  ⟨hn, firstPageUrl_pattern_absent _ hn⟩

/-- Claim C7: for every URL that does not contain the substring `page-`
(case-sensitive), the computed first-page URL is exactly
`https://jobber.md/jobs/page-1/`, and the placeholder substitution of line 28
leaves that template unchanged. -/
theorem firstPageUrl_fallback (u : List Char) (h : ¬ "page-".toList <:+: u) :
    firstPageUrl u = "https://jobber.md/jobs/page-1/".toList ∧
    replaceFirst "https://jobber.md/jobs/page-1/".toList pagePlaceholder "1".toList =
      "https://jobber.md/jobs/page-1/".toList :=
  ⟨firstPageUrl_of_not_sub u h, replaceFirst_fallback⟩

/-- Witness of C7, at `https://delucru.md/jobs`. -/
theorem firstPageUrl_fallback_witness :
    ¬ "page-".toList <:+: "https://delucru.md/jobs".toList ∧
    firstPageUrl "https://delucru.md/jobs".toList = "https://jobber.md/jobs/page-1/".toList ∧
    replaceFirst "https://jobber.md/jobs/page-1/".toList pagePlaceholder "1".toList =
      "https://jobber.md/jobs/page-1/".toList :=
  have hn : ¬ "page-".toList <:+: "https://delucru.md/jobs".toList := fun hi =>
    absurd ((includes_iff _ _).2 hi) (by decide)
  ⟨hn, firstPageUrl_fallback _ hn⟩

/-- Claim C9: the first-page URL heuristic is idempotent, `f (f u) = f u` for
every string `u`. -/
theorem firstPageUrl_idem (u : List Char) : firstPageUrl (firstPageUrl u) = firstPageUrl u := by
  by_cases h : "page-".toList <:+: u
  · rw [firstPageUrl_of_sub u h, firstPageUrl_of_sub _ (regexReplace_keeps_page u h)]
    exact regexReplace_idem u
  · rw [firstPageUrl_of_not_sub u h]
    decide

/-! ## The highlighter, one element -/

theorem highlightElement_of_empty (e : Element) (h : e.style.outline = "") :
    highlightElement (some e) =
      some { style := highlightStyle, dataset := highlightAnnotations } := by
  simp [highlightElement, truthy, h, highlightStyle, highlightAnnotations]

theorem highlightElement_of_outline (e : Element) (h : e.style.outline ≠ "") :
    highlightElement (some e) = some e := by
  simp [highlightElement, truthy, h]

theorem removeHighlight_of_absent (e : Element) (h : e.dataset.originalOutline = none) :
    removeHighlight (some e) = some e := by
  simp [removeHighlight, truthyEntry, h]

theorem removeHighlight_highlighted :
    removeHighlight (some { style := highlightStyle, dataset := highlightAnnotations }) =
      some { style := highlightStyle, dataset := noAnnotations } := by
  decide

/-- Claim C5: `highlightElement` is idempotent on the whole element state; the
second call changes nothing. -/
theorem highlightElement_idem (e : Option Element) :
    highlightElement (highlightElement e) = highlightElement e := by
  cases e with
  | none => rfl
  | some e =>
    by_cases h : e.style.outline = ""
    · rw [highlightElement_of_empty e h]
      exact highlightElement_of_outline _ (by decide)
    · rw [highlightElement_of_outline e h, highlightElement_of_outline e h]

/-- Claim C6: `removeHighlight` on an element without an `originalOutline`
annotation, and on a null element, changes nothing: the style properties and
all annotation entries stay as they are, and the call completes. -/
theorem removeHighlight_never_highlighted (e : Element)
    (h : e.dataset.originalOutline = none) :
    removeHighlight (some e) = some e ∧ removeHighlight none = none :=
  ⟨removeHighlight_of_absent e h, rfl⟩

/-- Witness of C6, at an element with a style of its own and a stray
`originalBg` entry. -/
theorem removeHighlight_never_highlighted_witness :
    (({ style := { outline := "1px solid blue", outlineOffset := "1px", backgroundColor := "white" },
        dataset := { originalOutline := none, originalOutlineOffset := none,
                     originalBg := some "white" } } : Element).dataset.originalOutline = none) ∧
    (removeHighlight (some
        { style := { outline := "1px solid blue", outlineOffset := "1px", backgroundColor := "white" },
          dataset := { originalOutline := none, originalOutlineOffset := none,
                       originalBg := some "white" } }) =
      some
        { style := { outline := "1px solid blue", outlineOffset := "1px", backgroundColor := "white" },
          dataset := { originalOutline := none, originalOutlineOffset := none,
                       originalBg := some "white" } } ∧
     removeHighlight none = none) :=
  ⟨rfl, removeHighlight_never_highlighted _ rfl⟩

/-- Claim C8: on an element with no outline set, `highlightElement` records as
the original values the values it has just applied, `3px solid red`, `2px`
and `rgba(255, 0, 0, 0.2)`; so `removeHighlight` after it leaves the three
style properties as highlighted and only removes the three annotation
entries. -/
theorem removeHighlight_after_highlight (e : Element) (h : e.style.outline = "") :
    highlightElement (some e) =
      some { style := { outline := "3px solid red", outlineOffset := "2px",
                        backgroundColor := "rgba(255, 0, 0, 0.2)" },
             dataset := { originalOutline := some "3px solid red",
                          originalOutlineOffset := some "2px",
                          originalBg := some "rgba(255, 0, 0, 0.2)" } } ∧
    removeHighlight (highlightElement (some e)) =
      some { style := { outline := "3px solid red", outlineOffset := "2px",
                        backgroundColor := "rgba(255, 0, 0, 0.2)" },
             dataset := { originalOutline := none, originalOutlineOffset := none,
                          originalBg := none } } := by
  rw [highlightElement_of_empty e h]
  exact ⟨rfl, removeHighlight_highlighted⟩

/-- Witness of C8, at an element with a background of its own. -/
theorem removeHighlight_after_highlight_witness :
    (({ style := { outline := "", outlineOffset := "", backgroundColor := "yellow" },
        dataset := noAnnotations } : Element).style.outline = "") ∧
    (highlightElement (some
        { style := { outline := "", outlineOffset := "", backgroundColor := "yellow" },
          dataset := noAnnotations }) =
      some { style := { outline := "3px solid red", outlineOffset := "2px",
                        backgroundColor := "rgba(255, 0, 0, 0.2)" },
             dataset := { originalOutline := some "3px solid red",
                          originalOutlineOffset := some "2px",
                          originalBg := some "rgba(255, 0, 0, 0.2)" } } ∧
     removeHighlight (highlightElement (some
        { style := { outline := "", outlineOffset := "", backgroundColor := "yellow" },
          dataset := noAnnotations })) =
      some { style := { outline := "3px solid red", outlineOffset := "2px",
                        backgroundColor := "rgba(255, 0, 0, 0.2)" },
             dataset := { originalOutline := none, originalOutlineOffset := none,
                          originalBg := none } }) :=
  ⟨rfl, removeHighlight_after_highlight _ rfl⟩

/-- One call keeps the annotations consistent. -/
theorem annotationsConsistent_step (c : Call) (e : Element) (h : AnnotationsConsistent e) :
    ∃ r, c.run (some e) = some r ∧ AnnotationsConsistent r := by
  cases c with
  | highlight =>
    by_cases ho : e.style.outline = ""
    · exact ⟨_, highlightElement_of_empty e ho, Or.inr ⟨rfl, rfl⟩⟩
    · exact ⟨e, highlightElement_of_outline e ho, h⟩
  | remove =>
    rcases h with h | ⟨hd, hs⟩
    · refine ⟨e, removeHighlight_of_absent e ?_, Or.inl h⟩
      rw [h]
      rfl
    · have he : e = { style := highlightStyle, dataset := highlightAnnotations } := by
        cases e
        simp only [Element.mk.injEq]
        exact ⟨hs, hd⟩
      subst he
      exact ⟨_, removeHighlight_highlighted, Or.inl rfl⟩

/-- Claim C10: starting from an element with none of the three annotation
entries, after any finite sequence of `highlightElement` and `removeHighlight`
calls the three entries are all absent, or all present, equal to
`3px solid red`, `2px`, `rgba(255, 0, 0, 0.2)` and to the element's current
outline, outline offset and background colour. -/
theorem annotations_invariant (e : Element) (calls : List Call)
    (h : e.dataset = { originalOutline := none, originalOutlineOffset := none,
                       originalBg := none }) :
    ∃ r, runCalls calls (some e) = some r ∧
      ((r.dataset.originalOutline = none ∧ r.dataset.originalOutlineOffset = none ∧
          r.dataset.originalBg = none) ∨
       (r.dataset.originalOutline = some "3px solid red" ∧
          r.dataset.originalOutlineOffset = some "2px" ∧
          r.dataset.originalBg = some "rgba(255, 0, 0, 0.2)" ∧
          r.style.outline = "3px solid red" ∧ r.style.outlineOffset = "2px" ∧
          r.style.backgroundColor = "rgba(255, 0, 0, 0.2)")) := by
  have key : ∀ (calls : List Call) (e : Element), AnnotationsConsistent e →
      ∃ r, runCalls calls (some e) = some r ∧ AnnotationsConsistent r := by
    intro calls
    induction calls with
    | nil => exact fun e he => ⟨e, rfl, he⟩
    | cons c calls ih =>
      intro e he
      obtain ⟨r, hr, hc⟩ := annotationsConsistent_step c e he
      obtain ⟨r2, hr2, hc2⟩ := ih r hc
      refine ⟨r2, ?_, hc2⟩
      simp only [runCalls, List.foldl_cons, hr]
      exact hr2
  obtain ⟨r, hr, hc⟩ := key calls e (Or.inl h)
  refine ⟨r, hr, ?_⟩
  rcases hc with hd | ⟨hd, hs⟩
  · left
    rw [hd]
    exact ⟨rfl, rfl, rfl⟩
  · right
    rw [hd, hs]
    exact ⟨rfl, rfl, rfl, rfl, rfl, rfl⟩

/-- Witness of C10: highlight, remove, highlight, highlight on an element
without a style. -/
theorem annotations_invariant_witness :
    (({ style := { outline := "", outlineOffset := "", backgroundColor := "" },
        dataset := { originalOutline := none, originalOutlineOffset := none,
                     originalBg := none } } : Element).dataset =
      { originalOutline := none, originalOutlineOffset := none, originalBg := none }) ∧
    ∃ r, runCalls [Call.highlight, Call.remove, Call.highlight, Call.highlight]
        (some { style := { outline := "", outlineOffset := "", backgroundColor := "" },
                dataset := { originalOutline := none, originalOutlineOffset := none,
                             originalBg := none } }) = some r ∧
      ((r.dataset.originalOutline = none ∧ r.dataset.originalOutlineOffset = none ∧
          r.dataset.originalBg = none) ∨
       (r.dataset.originalOutline = some "3px solid red" ∧
          r.dataset.originalOutlineOffset = some "2px" ∧
          r.dataset.originalBg = some "rgba(255, 0, 0, 0.2)" ∧
          r.style.outline = "3px solid red" ∧ r.style.outlineOffset = "2px" ∧
          r.style.backgroundColor = "rgba(255, 0, 0, 0.2)")) :=
  ⟨rfl, annotations_invariant _ _ rfl⟩

/-! ## The highlighter, the whole page -/

theorem callOn_getElem? (f : Option Element → Option Element) (doc : Document) (j i : Nat) :
    (callOn f doc j)[i]? = (doc[i]?).map (fun n => if i = j then onNode f n else n) := by
  unfold callOn
  cases hj : doc[j]? with
  | none =>
    by_cases hij : i = j
    · subst hij
      simp [hj]
    · simp [hij]
  | some n =>
    simp only
    rw [List.getElem?_set']
    by_cases hij : i = j
    · subst hij
      simp [hj]
    · have hji : ¬ j = i := fun h => hij h.symm
      simp [hij, hji]

/-- After `links.forEach(f)`, with `f` idempotent, the node behind a reference
in `links` has had `f` called on it and every other node is as before. -/
theorem forEach_getElem? (f : Option Element → Option Element)
    (hidem : ∀ n, onNode f (onNode f n) = onNode f n) (links : List Nat) (doc : Document)
    (i : Nat) :
    (forEach links f doc)[i]? = (doc[i]?).map (fun n => if i ∈ links then onNode f n else n) := by
  induction links generalizing doc with
  | nil => simp [forEach]
  | cons j links ih =>
    have hstep : forEach (j :: links) f doc = forEach links f (callOn f doc j) := rfl
    rw [hstep, ih, callOn_getElem?]
    cases doc[i]? with
    | none => rfl
    | some n =>
      simp only [Option.map_some', List.mem_cons]
      by_cases hij : i = j
      · subst hij
        by_cases hl : i ∈ links
        · simp [hl, hidem]
        · simp [hl]
      · simp [hij]

theorem mem_querySelectorAll (doc : Document) (sel : String) (i : Nat) :
    i ∈ querySelectorAll doc sel ↔ ∃ n, doc[i]? = some n ∧ n.selectorMatches sel = true := by
  unfold querySelectorAll
  rw [List.mem_filter, List.mem_range]
  constructor
  · rintro ⟨_, h⟩
    cases hn : doc[i]? with
    | none => simp [hn] at h
    | some n => exact ⟨n, rfl, by simpa [hn] using h⟩
  · rintro ⟨n, hn, hm⟩
    refine ⟨?_, by simp [hn, hm]⟩
    by_contra hlt
    rw [List.getElem?_eq_none (by omega)] at hn
    exact Option.noConfusion hn

theorem onNode_of_eq (f : Option Element → Option Element) (n : Node) (e : Element)
    (h : f (some n.element) = some e) : onNode f n = { n with element := e } := by
  simp only [onNode, h]

theorem onNode_highlight_idem (n : Node) :
    onNode highlightElement (onNode highlightElement n) = onNode highlightElement n := by
  by_cases h : n.element.style.outline = ""
  · rw [onNode_of_eq _ n _ (highlightElement_of_empty n.element h)]
    have hs : highlightStyle.outline ≠ "" := by decide
    exact onNode_of_eq _ _ _ (highlightElement_of_outline _ hs)
  · rw [onNode_of_eq _ n _ (highlightElement_of_outline n.element h)]
    exact onNode_of_eq _ _ _ (highlightElement_of_outline n.element h)

/-- The page after the highlighting pass: the node behind every reference the
job-link query returned has had `highlightElement` called on it. -/
theorem runScript_job_link (href : List Char) (doc : Document) (i : Nat) (n : Node)
    (hn : doc[i]? = some n) (hm : n.selectorMatches jobLinkSelector = true) :
    (runScript href doc).document[i]? = some (onNode highlightElement n) := by
  have hi : i ∈ querySelectorAll doc jobLinkSelector :=
    (mem_querySelectorAll doc _ i).2 ⟨n, hn, hm⟩
  simp only [runScript]
  rw [forEach_getElem? _ onNode_highlight_idem, forEach_getElem? _ onNode_highlight_idem, hn]
  simp only [Option.map_some', hi, if_true]
  split
  · rw [onNode_highlight_idem]
  · rfl

/-- Claim C4, refuted: a job link that has an outline of its own is matched by
the job-link selector, and after the script has run its outline is still
`1px solid blue` and its background is still empty: line 35 skips an element
whose outline is set. -/
theorem highlight_outlined_counterexample :
    (outlinedJobLinkPage[0]?).map (fun n => n.selectorMatches jobLinkSelector) = some true ∧
    0 ∈ querySelectorAll outlinedJobLinkPage jobLinkSelector ∧
    ((runScript "https://jobber.md/jobs/page-3/".toList outlinedJobLinkPage).document[0]?).map
        (fun n => n.element.style) =
      some { outline := "1px solid blue", outlineOffset := "", backgroundColor := "" } ∧
    ((runScript "https://jobber.md/jobs/page-3/".toList outlinedJobLinkPage).document[0]?).map
        (fun n => n.element.style.outline) ≠ some "3px solid red" := by
  decide

/-- Claim C4, amended: for every page and every element matching the job-link
selector whose inline outline is empty beforehand, after the script's
highlighting pass the element's outline is `3px solid red` and its background
colour is `rgba(255, 0, 0, 0.2)`; a matching element whose outline is set
beforehand is left as it is. -/
theorem highlight_pass_job_links (href : List Char) (doc : Document) (i : Nat) (n : Node)
    (hn : doc[i]? = some n) (hm : n.selectorMatches jobLinkSelector = true) :
    ∃ n2, (runScript href doc).document[i]? = some n2 ∧
      (n.element.style.outline = "" →
        n2.element.style.outline = "3px solid red" ∧
        n2.element.style.backgroundColor = "rgba(255, 0, 0, 0.2)") ∧
      (n.element.style.outline ≠ "" → n2.element = n.element) := by
  refine ⟨_, runScript_job_link href doc i n hn hm, ?_, ?_⟩
  · intro h
    rw [onNode_of_eq _ n _ (highlightElement_of_empty n.element h)]
    exact ⟨rfl, rfl⟩
  · intro h
    rw [onNode_of_eq _ n _ (highlightElement_of_outline n.element h)]

/-- Witness of C4 as amended, at the page with one unstyled job link. -/
theorem highlight_pass_job_links_witness :
    plainJobLinkPage[0]? = some plainJobLink ∧
    plainJobLink.selectorMatches jobLinkSelector = true ∧
    ∃ n2, (runScript "https://jobber.md/jobs/page-3/".toList plainJobLinkPage).document[0]? =
        some n2 ∧
      (plainJobLink.element.style.outline = "" →
        n2.element.style.outline = "3px solid red" ∧
        n2.element.style.backgroundColor = "rgba(255, 0, 0, 0.2)") ∧
      (plainJobLink.element.style.outline ≠ "" → n2.element = plainJobLink.element) :=
  ⟨rfl, by decide, highlight_pass_job_links _ plainJobLinkPage 0 plainJobLink rfl (by decide)⟩

/-- Claim C3, evaluated where it fails: on the page with one unstyled job
link the element's outline, outline offset and background colour are empty
before the script runs, and after the script has run and
`removeJOBBER_MDHighlights` has been called they are the highlight values,
not the empty strings held before: lines 40 to 42 record the values after
lines 36 to 38 have overwritten them. -/
theorem reset_keeps_highlight :
    (plainJobLinkPage[0]?).map (fun n => n.element.style) =
      some { outline := "", outlineOffset := "", backgroundColor := "" } ∧
    0 ∈ (runScript "https://jobber.md/jobs/page-3/".toList plainJobLinkPage).jobLinks ∧
    ((removeJOBBER_MDHighlights
        (runScript "https://jobber.md/jobs/page-3/".toList plainJobLinkPage)).document[0]?).map
        (fun n => n.element.style) =
      some { outline := "3px solid red", outlineOffset := "2px",
             backgroundColor := "rgba(255, 0, 0, 0.2)" } := by
  decide

end JobberMd
